import Mathlib

set_option maxHeartbeats 1600000

/-!
Shallow embedding of the extent-map parser and virtual-data validator of
`src/src/physical_map.py` (together with `strip_nl` / `strip_suffix` from
`src/src/common.py`).  Python integers are modelled as `Int`, Python
exceptions (failed `assert`s, `ValueError`, `KeyError`-free paths) as
`Except Err`.  The definitions mirror the Python control flow, including the
order in which the checks run.
-/

deriving instance DecidableEq for Except

/-- Failure reasons: one constructor per distinct Python `assert` /
exception site reachable from `parse` / `validate_virtual_data`. -/
inductive Err where
  | stripNl
  | header
  | intParse
  | cosort
  | overlap
  | fileContig
  | lengthMismatch
  | groupInit
  | outOfRange
  | grouping
  | extOffset
  | devid
  | extype
  | physLog
  | emptyMax
  | matchOrder
  | noMatch
  | boundary
deriving DecidableEq, Repr

/-- One row of the `btrfs_map_physical` report (the dict built by `parse`,
in the complete, 9-column case). -/
structure Record where
  file_offset : Int
  file_size : Int
  extent_offset : Int
  extent_type : String
  logical_size : Int
  logical_offset : Int
  physical_size : Int
  device_id : Int
  physical_offset : Int
deriving DecidableEq, Repr

/-- Python tuple comparison `<` on `(offset, size)` pairs (lexicographic). -/
def pairLt (p q : Int × Int) : Prop :=
  p.1 < q.1 ∨ (p.1 = q.1 ∧ p.2 < q.2)

instance (p q : Int × Int) : Decidable (pairLt p q) :=
  inferInstanceAs (Decidable (p.1 < q.1 ∨ (p.1 = q.1 ∧ p.2 < q.2)))

/-- Python tuple comparison `<=` on pairs (lexicographic). -/
def lexLe (p q : Int × Int) : Prop :=
  p.1 < q.1 ∨ (p.1 = q.1 ∧ p.2 ≤ q.2)

instance (p q : Int × Int) : Decidable (lexLe p q) :=
  inferInstanceAs (Decidable (p.1 < q.1 ∨ (p.1 = q.1 ∧ p.2 ≤ q.2)))

/-- Insert a pair into a strictly `pairLt`-sorted duplicate-free list,
keeping it strictly sorted and duplicate-free. -/
def insPair (p : Int × Int) : List (Int × Int) → List (Int × Int)
  | [] => [p]
  | q :: l =>
    if pairLt p q then p :: q :: l
    else if p = q then q :: l
    else q :: insPair p l

/-- Python `sorted(set(l))`: the strictly ascending duplicate-free
enumeration (lexicographic) of the pairs occurring in `l`. -/
def sortedDedup (l : List (Int × Int)) : List (Int × Int) :=
  l.foldr insPair []

/-- The loop of `gen_continuous_parts`.  The state is `none` before the
first pair, and `some (cur_start, prev_end)` afterwards. -/
def genGo : Option (Int × Int) → List (Int × Int) → Except Err (List (Int × Int))
  | none, [] => .ok []
  | some st, [] => .ok [(st.1, st.2 - st.1)]
  | none, p :: rest => genGo (some (p.1, p.1 + p.2)) rest
  | some st, p :: rest =>
    if st.2 > p.1 then .error .overlap
    else if st.2 < p.1 then
      match genGo (some (p.1, p.1 + p.2)) rest with
      | .error e => .error e
      | .ok out => .ok ((st.1, st.2 - st.1) :: out)
    else genGo (some (st.1, p.1 + p.2)) rest

/-- The function `gen_continuous_parts(phys_map, col_offset, col_size)` applied to the
already-projected `(offset, size)` pairs: dedup + sort, then merge
adjacent intervals, failing on overlap. -/
def gen_continuous_parts (pairs : List (Int × Int)) : Except Err (List (Int × Int)) :=
  genGo none (sortedDedup pairs)

/-- Python `xs == sorted(xs)` for a list of ints: non-decreasing. -/
def nondecr : List Int → Bool
  | [] => true
  | [_] => true
  | a :: b :: t => decide (a ≤ b) && nondecr (b :: t)

/-- Inner `get_contigs` of `validate_virtual_data`: assert the chosen
offset column is co-sorted with the (file-offset-sorted) table, then run
the contiguity scan on `(offset, size)` pairs of the chosen columns. -/
def get_contigs (pm : List Record) (fo fs : Record → Int) :
    Except Err (List (Int × Int)) :=
  if nondecr (pm.map fo) then gen_continuous_parts (pm.map fun r => (fo r, fs r))
  else .error .cosort

/-- Insert a record into a list sorted by `file_offset`, after all records
with a key `<=` its own (this is what makes the sort stable). -/
def insByFO (r : Record) : List Record → List Record
  | [] => [r]
  | q :: l =>
    if r.file_offset < q.file_offset then r :: q :: l else q :: insByFO r l

/-- Python `sorted(phys_map, key=lambda r: r[COL_FILE_OFFSET])`: stable sort by
`file_offset`. -/
def sortByFO (l : List Record) : List Record :=
  l.foldl (fun acc r => insByFO r acc) []

/-- Sum of the sizes of a list of `(offset, size)` pairs. -/
def sizeSum (l : List (Int × Int)) : Int :=
  (l.map fun p => p.2).sum

/-- Python `1 == len(set(sizes))` for a non-empty list: all entries equal. -/
def allEqInt : List Int → Bool
  | [] => true
  | x :: xs => xs.all fun y => decide (y = x)

/-- One step of Python `max(..., key=lambda x: x[1])`: keep the current
best unless the new element is strictly larger (first maximum wins). -/
def pyMaxStep (a b : Int × Int) : Int × Int :=
  if a.2 < b.2 then b else a

/-- Python `max(contigs, key=lambda x: x[1])` on a non-empty list given as
head and tail. -/
def pyMaxBySnd (c : Int × Int) (cs : List (Int × Int)) : Int × Int :=
  cs.foldl pyMaxStep c

/-- The body of the per-row grouping walk of `validate_virtual_data`
(lines 184-203): the `if ext_off == 0` block. Returns the updated
`(file_ext_sizes, log_ext_idx)` state or the failing assertion. -/
def gwStep (logx : List (Int × Int)) (r : Record) (sizes : List Int)
    (idx : Option Nat) : Except Err (List Int × Option Nat) :=
  if r.extent_offset = 0 then
    match idx with
    | none => if sizes = [] then .ok ([], some 0) else .error .groupInit
    | some i =>
      match logx.get? i with
      | none => .error .outOfRange
      | some le => if sizes.sum = le.2 then .ok ([], some i) else .error .grouping
  else .ok (sizes, idx)

/-- The grouping walk itself: thread `(file_ext_sizes, log_ext_idx)`
through the rows, checking `ext_off == sum(file_ext_sizes)` for each. -/
def gwGo (logx : List (Int × Int)) :
    List Record → List Int → Option Nat → Except Err Unit
  | [], _, _ => .ok ()
  | r :: rest, sizes0, idx0 =>
    match gwStep logx r sizes0 idx0 with
    | .error e => .error e
    | .ok (sizes, idx) =>
      if r.extent_offset = sizes.sum then gwGo logx rest (sizes ++ [r.file_size]) idx
      else .error .extOffset

/-- The grouping walk over a table, starting from the initial Python state
`file_ext_sizes = []`, `log_ext_idx = None`. -/
def groupWalk (pm : List Record) (logx : List (Int × Int)) : Except Err Unit :=
  gwGo logx pm [] none

/-- The per-row `DEVID` / `EXTENT TYPE` / size-equality loop
(lines 205-218). -/
def perRecordChecks : List Record → Except Err Unit
  | [] => .ok ()
  | r :: rest =>
    if r.device_id ≠ 1 then .error .devid
    else if r.extent_type ≠ "regular" then .error .extype
    else if r.physical_size ≠ r.logical_size then .error .physLog
    else perRecordChecks rest

/-- Python `matches == sorted(matches)` for a list of pairs: non-decreasing in
Python's lexicographic tuple order. -/
def lexNondecr : List (Int × Int) → Bool
  | [] => true
  | [_] => true
  | p :: q :: t => decide (lexLe p q) && lexNondecr (q :: t)

/-- The body of `validate_virtual_data` after its initial re-sort: every check, in the
order the Python code runs them. -/
def validate_sorted (pm : List Record) : Except Err (Int × Int × Int) :=
  let logical_extents := sortedDedup (pm.map fun r => (r.logical_offset, r.logical_size))
  let physical_extents := sortedDedup (pm.map fun r => (r.physical_offset, r.physical_size))
  match get_contigs pm (fun r => r.file_offset) (fun r => r.file_size) with
  | .error e => .error e
  | .ok file_contigs =>
    if file_contigs.length = 1 then
      match get_contigs pm (fun r => r.physical_offset) (fun r => r.physical_size) with
      | .error e => .error e
      | .ok phys_contigs =>
        match get_contigs pm (fun r => r.logical_offset) (fun r => r.logical_size) with
        | .error e => .error e
        | .ok log_contigs =>
          if allEqInt [sizeSum file_contigs, sizeSum log_contigs, sizeSum phys_contigs,
              sizeSum (pm.map fun r => (r.file_offset, r.file_size)),
              sizeSum logical_extents, sizeSum physical_extents] then
            match groupWalk pm logical_extents with
            | .error e => .error e
            | .ok _ =>
              match perRecordChecks pm with
              | .error e => .error e
              | .ok _ =>
                match phys_contigs with
                | [] => .error .emptyMax
                | c :: cs =>
                  let b := pyMaxBySnd c cs
                  let ms := (pm.filter fun r => decide (r.physical_offset = b.1)).map
                      fun r => (r.file_offset, r.extent_offset)
                  if lexNondecr ms then
                    match ms with
                    | [] => .error .noMatch
                    | m :: _ => if m.2 = 0 then .ok (m.1, b.1, b.2) else .error .boundary
                  else .error .matchOrder
          else .error .lengthMismatch
    else .error .fileContig

/-- The function `validate_virtual_data(phys_map)`: re-sort by file offset, then run all
the checks. -/
def validate_virtual_data (pm : List Record) : Except Err (Int × Int × Int) :=
  validate_sorted (sortByFO pm)

/-! ### The parser (`parse`, `strip_nl`, Python `int()` and `str.split`). -/

/-- A parsed field: every column except `EXTENT TYPE` becomes an `Int`,
`EXTENT TYPE` stays a raw token. -/
inductive FieldVal where
  | i : Int → FieldVal
  | s : List Char → FieldVal
deriving DecidableEq, Repr

/-- A parsed row: the dict `{col: val for col, val in zip(COL_ORDER, raw_row)}`,
as an association list keyed in `COL_ORDER` order (keys are distinct, so an
association list models the dict exactly; `zip` truncates to the shorter
of the two sequences, so a short raw row yields a dict missing the
trailing columns). -/
abbrev RawRow := List (String × FieldVal)

/-- The fixed header, `COL_ORDER`. -/
def COL_ORDER : List String :=
  ["FILE OFFSET", "FILE SIZE", "EXTENT OFFSET", "EXTENT TYPE", "LOGICAL SIZE",
   "LOGICAL OFFSET", "PHYSICAL SIZE", "DEVID", "PHYSICAL OFFSET"]

/-- The `COL_EXTENT_TYPE` column name. -/
def COL_EXTENT_TYPE : String := "EXTENT TYPE"

/-- Python `s.split(sep)` for a single-character separator: never returns
an empty list; `''.split(sep) == ['']`. -/
def splitOnChar (sep : Char) : List Char → List (List Char)
  | [] => [[]]
  | c :: rest =>
    match splitOnChar sep rest with
    | [] => [[]]
    | g :: gs => if c = sep then [] :: g :: gs else (c :: g) :: gs

/-- The helper `strip_nl` from `common.py`: `strip_suffix(s, '\n')` *asserts* that the
string ends with a newline and then removes it. -/
def strip_nl (s : List Char) : Except Err (List Char) :=
  if s.getLast? = some '\n' then .ok s.dropLast else .error .stripNl

/-- Whitespace accepted (and stripped) by Python `int()`. -/
def pyWsB (c : Char) : Bool :=
  c == ' ' || c == '\t' || c == '\n' || c == '\r' || c == '\x0b' || c == '\x0c'

/-- ASCII decimal digit test. -/
def isDigitCh (c : Char) : Bool :=
  decide ('0' ≤ c ∧ c ≤ '9')

/-- Decimal value of a digit string (most significant first). -/
def digitsVal (ds : List Char) : Int :=
  ds.foldl (fun a c => 10 * a + ((c.toNat : Int) - 48)) 0

/-- Python `int(s)` on a string: strip surrounding whitespace, allow one
optional sign, then require a non-empty run of decimal digits;
`ValueError` otherwise. -/
def int_of_str (l : List Char) : Except Err Int :=
  match ((l.dropWhile pyWsB).reverse.dropWhile pyWsB).reverse with
  | '-' :: ds =>
    if !ds.isEmpty && ds.all isDigitCh then .ok (-(digitsVal ds)) else .error .intParse
  | '+' :: ds =>
    if !ds.isEmpty && ds.all isDigitCh then .ok (digitsVal ds) else .error .intParse
  | ds =>
    if !ds.isEmpty && ds.all isDigitCh then .ok (digitsVal ds) else .error .intParse

/-- One `(col, val)` entry of the row dict comprehension. -/
def parseCell (cv : String × List Char) : Except Err (String × FieldVal) :=
  if cv.1 = COL_EXTENT_TYPE then .ok (cv.1, .s cv.2)
  else
    match int_of_str cv.2 with
    | .ok n => .ok (cv.1, .i n)
    | .error e => .error e

/-- The dict comprehension over `zip(COL_ORDER, raw_row)`. -/
def parseRow (cells : List (List Char)) : Except Err RawRow :=
  (COL_ORDER.zip cells).mapM parseCell

/-- The function `parse(raw_map)`: strip the (mandatory) trailing newline, split into
lines and tab-separated cells, check the header, and build one row dict
per remaining line. -/
def parse (raw : String) : Except Err (List RawRow) :=
  match strip_nl raw.data with
  | .error e => .error e
  | .ok body =>
    match (splitOnChar '\n' body).map (splitOnChar '\t') with
    | [] => .error .header
    | hdr :: rest =>
      if hdr = COL_ORDER.map String.data then rest.mapM parseRow
      else .error .header

/-! ### Relations and helper predicates used in the theorem statements. -/

/-- Consecutive merged parts must satisfy `end <= next offset`. -/
def endLe (p q : Int × Int) : Prop := p.1 + p.2 ≤ q.1

instance (p q : Int × Int) : Decidable (endLe p q) :=
  inferInstanceAs (Decidable (p.1 + p.2 ≤ q.1))

/-- Strict gap between consecutive merged parts (maximality). -/
def gapLt (p q : Int × Int) : Prop := p.1 + p.2 < q.1

instance (p q : Int × Int) : Decidable (gapLt p q) :=
  inferInstanceAs (Decidable (p.1 + p.2 < q.1))

/-- Strictly ascending offsets. -/
def offLt (p q : Int × Int) : Prop := p.1 < q.1

instance (p q : Int × Int) : Decidable (offLt p q) :=
  inferInstanceAs (Decidable (p.1 < q.1))

/-- Membership of a point in the half-open interval `[offset, offset+size)`. -/
def rangeMem (x : Int) (p : Int × Int) : Prop :=
  p.1 ≤ x ∧ x < p.1 + p.2

instance (x : Int) (p : Int × Int) : Decidable (rangeMem x p) :=
  inferInstanceAs (Decidable (p.1 ≤ x ∧ x < p.1 + p.2))

/-- A point lies in the union of the half-open intervals of `l`. -/
def covers (l : List (Int × Int)) (x : Int) : Prop :=
  ∃ p ∈ l, rangeMem x p

/-- Two distinct intervals that share at least one byte. -/
def properOverlap (p q : Int × Int) : Prop :=
  p ≠ q ∧ ∃ x, rangeMem x p ∧ rangeMem x q

/-- The `(file_offset, file_size)` pair of a record. -/
def filePair (r : Record) : Int × Int := (r.file_offset, r.file_size)

/-- The `(logical_offset, logical_size)` pair of a record. -/
def logPair (r : Record) : Int × Int := (r.logical_offset, r.logical_size)

/-- The `(physical_offset, physical_size)` pair of a record. -/
def physPair (r : Record) : Int × Int := (r.physical_offset, r.physical_size)

/-- Two records overlap properly in one of the three address spaces. -/
def spaceOverlap (r1 r2 : Record) : Prop :=
  properOverlap (filePair r1) (filePair r2) ∨
    properOverlap (logPair r1) (logPair r2) ∨
    properOverlap (physPair r1) (physPair r2)

/-- The `(file_offset, extent_offset)` pairs of the records whose
`physical_offset` equals `po`, in file-offset-sorted table order
(`file_offset_matches` in the Python code). -/
def matchPairs (pm0 : List Record) (po : Int) : List (Int × Int) :=
  ((sortByFO pm0).filter fun r => decide (r.physical_offset = po)).map
    fun r => (r.file_offset, r.extent_offset)

/-- Per-group `file_size` totals of a file-offset-sorted table, grouping
exactly as the spec's grouping walk does: a row with `extent_offset == 0`
starts a new group.  (The spec's view of the walk in §4.3 step 5; used to
compare the intended grouping invariant with what the code checks.) -/
def groupSumsGo : List Record → Int → List Int
  | [], acc => [acc]
  | r :: rest, acc =>
    if r.extent_offset = 0 then acc :: groupSumsGo rest r.file_size
    else groupSumsGo rest (acc + r.file_size)

/-- Per-group `file_size` totals (empty table gives no groups). -/
def groupSums : List Record → List Int
  | [] => []
  | r :: rest => groupSumsGo rest r.file_size

/-! ### Concrete tables and reports used by the individual claims. -/

/-- Build a record in report column order. -/
def mkRec (fo fs eo : Int) (ty : String) (ls lo ps dev po : Int) : Record :=
  ⟨fo, fs, eo, ty, ls, lo, ps, dev, po⟩

/-- Three single-row groups over logical extents of sizes 10, 30, 20; the
second group's `file_size` total (10) does not match its own logical
extent's size (30), yet all the group checks the code actually runs
compare against `logical_extents[0]` (size 10) and pass. -/
def c1Table : List Record :=
  [mkRec 0 10 0 "regular" 10 0 10 1 100,
   mkRec 10 10 0 "regular" 30 10 30 1 110,
   mkRec 20 40 0 "regular" 20 40 20 1 140]

/-- Two records forming two physical contigs of equal size 10 (a tie). -/
def c3Table : List Record :=
  [mkRec 0 10 0 "regular" 10 0 10 1 100,
   mkRec 10 10 0 "regular" 10 10 10 1 200]

/-- The single-record table of C6 with the claimed `file_size` value
274877972480 (which differs from the logical/physical size 2^62). -/
def c6ClaimRec : Record :=
  mkRec 0 274877972480 0 "regular" 4611686018427387904 0 4611686018427387904 1 274877972480

/-- The single-record table of C6 with `file_size` equal to the extent
size 2^62 (the layout the repository's `test_single_extent` fixture uses),
with symbolic logical offset `X`. -/
def c6Rec (X : Int) : Record :=
  mkRec 0 4611686018427387904 0 "regular" 4611686018427387904 X 4611686018427387904 1 274877972480

/-- Two records whose physical ranges `[1005,1015)` and `[1000,1010)`
overlap, but whose physical offsets are not co-sorted with file offsets,
so validation dies on the co-sortedness assert first. -/
def c7Table : List Record :=
  [mkRec 0 10 0 "regular" 10 100 10 1 1005,
   mkRec 10 10 0 "regular" 10 110 10 1 1000]

/-- Record with `file_offset = 0`, logical offset 10, physical offset 90,
all sizes zero. -/
def c8RecA : Record := mkRec 0 0 0 "regular" 0 10 0 1 90

/-- Record with `file_offset = 0` (tied with `c8RecA`), logical offset 20,
physical offset 100, all sizes zero. -/
def c8RecB : Record := mkRec 0 0 0 "regular" 0 20 0 1 100

/-- Two-record table with distinct file offsets, used to witness
permutation invariance. -/
def c8WitTable : List Record :=
  [mkRec 0 5 0 "regular" 5 0 5 1 100,
   mkRec 5 5 0 "regular" 5 5 5 1 105]

/-- The raw report header line. -/
def hdrStr : String :=
  "FILE OFFSET\tFILE SIZE\tEXTENT OFFSET\tEXTENT TYPE\tLOGICAL SIZE\tLOGICAL OFFSET\tPHYSICAL SIZE\tDEVID\tPHYSICAL OFFSET"

/-- A well-formed 9-field data row. -/
def rowStr : String := "0\t16\t0\tregular\t16\t32\t16\t1\t64"

/-- A well-formed report whose last line is not newline-terminated. -/
def c4NoNlReport : String := hdrStr ++ "\n" ++ rowStr

/-- The same report, newline-terminated. -/
def c4NlReport : String := hdrStr ++ "\n" ++ rowStr ++ "\n"

/-- The row dict produced for `rowStr`. -/
def rowParsed : RawRow :=
  [("FILE OFFSET", .i 0), ("FILE SIZE", .i 16), ("EXTENT OFFSET", .i 0),
   ("EXTENT TYPE", .s "regular".data), ("LOGICAL SIZE", .i 16),
   ("LOGICAL OFFSET", .i 32), ("PHYSICAL SIZE", .i 16), ("DEVID", .i 1),
   ("PHYSICAL OFFSET", .i 64)]

/-- A report whose data row has ten tab-separated fields. -/
def c5ExtraReport : String := hdrStr ++ "\n" ++ rowStr ++ "\tjunk\n"

/-- A report whose data row has only five tab-separated fields. -/
def c5ShortReport : String := hdrStr ++ "\n" ++ "0\t16\t0\tregular\t16\n"

/-- The partial row dict produced for the five-field row. -/
def c5ShortRow : RawRow :=
  [("FILE OFFSET", .i 0), ("FILE SIZE", .i 16), ("EXTENT OFFSET", .i 0),
   ("EXTENT TYPE", .s "regular".data), ("LOGICAL SIZE", .i 16)]

/-- A header-only report (no data rows). -/
def c10Report : String := hdrStr ++ "\n"

/-! ### Order lemmas for pairs and the dedup-sort. -/

theorem pairLt_ne {p q : Int × Int} (h : pairLt p q) : p ≠ q := by
  intro he
  subst he
  unfold pairLt at h
  omega

theorem pairLt_trans {p q r : Int × Int} (h1 : pairLt p q) (h2 : pairLt q r) :
    pairLt p r := by
  unfold pairLt at *
  omega

theorem pairLt_connex {p q : Int × Int} (h : p ≠ q) : pairLt p q ∨ pairLt q p := by
  have h' : ¬(p.1 = q.1 ∧ p.2 = q.2) := by
    intro hc
    exact h (Prod.ext hc.1 hc.2)
  unfold pairLt
  omega

theorem pairLt_le {p q : Int × Int} (h : pairLt p q) : p.1 ≤ q.1 := by
  unfold pairLt at h
  omega

theorem insPair_mem {p a : Int × Int} :
    ∀ {l : List (Int × Int)}, a ∈ insPair p l ↔ a = p ∨ a ∈ l := by
  intro l
  induction l with
  | nil => simp [insPair]
  | cons q t ih =>
    unfold insPair
    split_ifs with h1 h2
    · simp only [List.mem_cons]
    · subst h2
      simp only [List.mem_cons]
      tauto
    · simp only [List.mem_cons, ih]
      tauto

theorem insPair_pairwise {p : Int × Int} :
    ∀ {l : List (Int × Int)}, l.Pairwise pairLt → (insPair p l).Pairwise pairLt := by
  intro l
  induction l with
  | nil => intro _; simp [insPair]
  | cons q t ih =>
    intro hs
    rw [List.pairwise_cons] at hs
    by_cases h1 : pairLt p q
    · rw [insPair, if_pos h1, List.pairwise_cons]
      refine ⟨?_, by rw [List.pairwise_cons]; exact hs⟩
      intro a ha
      rcases List.mem_cons.mp ha with h | h
      · subst h; exact h1
      · exact pairLt_trans h1 (hs.1 a h)
    · by_cases h2 : p = q
      · rw [insPair, if_neg h1, if_pos h2, List.pairwise_cons]
        exact hs
      · rw [insPair, if_neg h1, if_neg h2, List.pairwise_cons]
        refine ⟨?_, ih hs.2⟩
        intro a ha
        rcases insPair_mem.mp ha with h | h
        · subst h
          rcases pairLt_connex h2 with h | h
          · exact absurd h h1
          · exact h
        · exact hs.1 a h

theorem sortedDedup_mem {a : Int × Int} :
    ∀ {l : List (Int × Int)}, a ∈ sortedDedup l ↔ a ∈ l := by
  intro l
  induction l with
  | nil => simp [sortedDedup]
  | cons p t ih =>
    show a ∈ insPair p (sortedDedup t) ↔ _
    rw [insPair_mem, List.mem_cons, ih]

theorem sortedDedup_pairwise (l : List (Int × Int)) :
    (sortedDedup l).Pairwise pairLt := by
  induction l with
  | nil => simp [sortedDedup]
  | cons p t ih => exact insPair_pairwise ih

/-! ### Basic facts about the contiguity scan. -/

theorem covers_nil (x : Int) : covers [] x ↔ False := by
  simp [covers]

theorem covers_cons {p : Int × Int} {l : List (Int × Int)} (x : Int) :
    covers (p :: l) x ↔ rangeMem x p ∨ covers l x := by
  simp [covers]

theorem sizeSum_nil : sizeSum [] = 0 := rfl

theorem sizeSum_cons (p : Int × Int) (l : List (Int × Int)) :
    sizeSum (p :: l) = p.2 + sizeSum l := by
  simp [sizeSum]

theorem genGo_error_overlap :
    ∀ (l : List (Int × Int)) (st : Option (Int × Int)) (e : Err),
      genGo st l = .error e → e = .overlap := by
  intro l
  induction l with
  | nil =>
    intro st e h
    cases st <;> simp [genGo] at h
  | cons p t ih =>
    intro st e h
    cases st with
    | none => exact ih _ _ h
    | some s =>
      rw [genGo] at h
      split_ifs at h with h1 h2
      · exact (Except.error.injEq _ _).mp h.symm
      · split at h
        · next e' heq =>
          cases h
          exact ih _ _ heq
        · cases h
      · exact ih _ _ h

theorem genGo_ok_chain :
    ∀ (l : List (Int × Int)) (s : Int × Int) (out : List (Int × Int)),
      genGo (some s) l = .ok out →
      l.Chain' endLe ∧ ∀ q ∈ l.head?, s.2 ≤ q.1 := by
  intro l
  induction l with
  | nil =>
    intro s out _
    exact ⟨List.chain'_nil, by simp⟩
  | cons p t ih =>
    intro s out h
    rw [genGo] at h
    split_ifs at h with h1 h2
    · split at h
      · cases h
      · next out' heq =>
        obtain ⟨hch, hhd⟩ := ih _ _ heq
        refine ⟨List.chain'_cons'.mpr ⟨?_, hch⟩, ?_⟩
        · intro y hy
          have := hhd y hy
          unfold endLe
          omega
        · intro q hq
          simp at hq
          subst hq
          omega
    · obtain ⟨hch, hhd⟩ := ih _ _ h
      refine ⟨List.chain'_cons'.mpr ⟨?_, hch⟩, ?_⟩
      · intro y hy
        have := hhd y hy
        unfold endLe
        omega
      · intro q hq
        simp at hq
        subst hq
        omega

theorem genGo_ok_offsets :
    ∀ (l : List (Int × Int)) (st : Option (Int × Int)) (out : List (Int × Int)),
      genGo st l = .ok out →
      ∀ q ∈ out, (∃ s, st = some s ∧ q.1 = s.1) ∨ ∃ p ∈ l, q.1 = p.1 := by
  intro l
  induction l with
  | nil =>
    intro st out h q hq
    cases st with
    | none =>
      rw [genGo] at h
      cases h
      cases hq
    | some s =>
      rw [genGo] at h
      cases h
      simp at hq
      subst hq
      exact Or.inl ⟨s, rfl, rfl⟩
  | cons p t ih =>
    intro st out h q hq
    cases st with
    | none =>
      rcases ih _ _ h q hq with ⟨s, hs, hq1⟩ | ⟨p', hp', hq1⟩
      · cases hs
        exact Or.inr ⟨p, List.mem_cons_self _ _, hq1⟩
      · exact Or.inr ⟨p', List.mem_cons_of_mem _ hp', hq1⟩
    | some s =>
      rw [genGo] at h
      split_ifs at h with h1 h2
      · split at h
        · cases h
        · next out' heq =>
          cases h
          rcases List.mem_cons.mp hq with hq | hq
          · subst hq
            exact Or.inl ⟨s, rfl, rfl⟩
          · rcases ih _ _ heq q hq with ⟨s', hs', hq1⟩ | ⟨p', hp', hq1⟩
            · cases hs'
              exact Or.inr ⟨p, List.mem_cons_self _ _, hq1⟩
            · exact Or.inr ⟨p', List.mem_cons_of_mem _ hp', hq1⟩
      · rcases ih _ _ h q hq with ⟨s', hs', hq1⟩ | ⟨p', hp', hq1⟩
        · cases hs'
          exact Or.inl ⟨s, rfl, hq1⟩
        · exact Or.inr ⟨p', List.mem_cons_of_mem _ hp', hq1⟩

theorem chain_gap_off :
    ∀ {l : List (Int × Int)}, (∀ q ∈ l, 0 ≤ q.2) → l.Chain' gapLt → l.Chain' offLt := by
  intro l
  induction l with
  | nil => intro _ _; exact List.chain'_nil
  | cons a t ih =>
    intro hnn hch
    cases t with
    | nil => simp
    | cons b t2 =>
      rw [List.chain'_cons] at hch ⊢
      refine ⟨?_, ih (fun q hq => hnn q (List.mem_cons_of_mem _ hq)) hch.2⟩
      have ha := hnn a (List.mem_cons_self _ _)
      have h1 := hch.1
      unfold gapLt at h1
      unfold offLt
      omega

/-- The merge loop, run from a pending interval `[c, pe)` over a list of
pairs that all start at or after `pe`, do not overlap each other, and have
non-negative sizes, succeeds and produces the maximal merged intervals. -/
theorem genGo_main :
    ∀ (l : List (Int × Int)) (c pe : Int),
      l.Pairwise endLe →
      (∀ p ∈ l, 0 ≤ p.2) →
      (∀ p ∈ l, pe ≤ p.1) →
      c ≤ pe →
      ∃ out, genGo (some (c, pe)) l = .ok out ∧
        (∃ s0 rest, out = (c, s0) :: rest ∧ pe - c ≤ s0) ∧
        (∀ q ∈ out, 0 ≤ q.2) ∧
        out.Chain' gapLt ∧
        (∀ x, covers out x ↔ ((c ≤ x ∧ x < pe) ∨ covers l x)) ∧
        sizeSum out = (pe - c) + sizeSum l := by
  intro l
  induction l with
  | nil =>
    intro c pe _ _ _ hc
    refine ⟨[(c, pe - c)], rfl, ⟨pe - c, [], rfl, le_refl _⟩, ?_, ?_, ?_, ?_⟩
    · intro q hq
      simp at hq
      subst hq
      simp
      omega
    · exact List.chain'_singleton _
    · intro x
      rw [covers_cons]
      unfold rangeMem covers
      simp
    · rw [sizeSum_cons]
  | cons p t ih =>
    intro c pe hpw hsz hpe hc
    have hple : pe ≤ p.1 := hpe p (List.mem_cons_self _ _)
    have hp2 : 0 ≤ p.2 := hsz p (List.mem_cons_self _ _)
    rw [List.pairwise_cons] at hpw
    have hrec := ih p.1 (p.1 + p.2) hpw.2
      (fun q hq => hsz q (List.mem_cons_of_mem _ hq))
      (fun q hq => hpw.1 q hq)
      (by omega)
    rcases eq_or_lt_of_le hple with heq | hlt
    · -- pe = p.1 : merge with the pending interval
      have hrec2 := ih c (p.1 + p.2) hpw.2
        (fun q hq => hsz q (List.mem_cons_of_mem _ hq))
        (fun q hq => hpw.1 q hq)
        (by omega)
      obtain ⟨out, hout, ⟨s0, rest, hshape, hs0⟩, hnn, hchain, hcov, hsum⟩ := hrec2
      have hstep : genGo (some (c, pe)) (p :: t) = genGo (some (c, p.1 + p.2)) t := by
        rw [genGo]
        rw [if_neg (by simp; omega), if_neg (by simp; omega)]
      refine ⟨out, by rw [hstep]; exact hout, ⟨s0, rest, hshape, by omega⟩, hnn, hchain, ?_, ?_⟩
      · intro x
        rw [hcov x, covers_cons]
        unfold rangeMem
        constructor
        · rintro (⟨h1, h2⟩ | hct)
          · by_cases hx : x < pe
            · exact Or.inl ⟨h1, hx⟩
            · exact Or.inr (Or.inl ⟨by omega, h2⟩)
          · exact Or.inr (Or.inr hct)
        · rintro (⟨h1, h2⟩ | ⟨h1, h2⟩ | hct)
          · exact Or.inl ⟨h1, by omega⟩
          · exact Or.inl ⟨by omega, h2⟩
          · exact Or.inr hct
      · rw [hsum, sizeSum_cons]
        omega
    · -- pe < p.1 : emit the pending interval, start a new one at p
      obtain ⟨out, hout, ⟨s0, rest, hshape, hs0⟩, hnn, hchain, hcov, hsum⟩ := hrec
      have hstep : genGo (some (c, pe)) (p :: t) =
          match genGo (some (p.1, p.1 + p.2)) t with
          | .error e => .error e
          | .ok out => .ok ((c, pe - c) :: out) := by
        rw [genGo]
        rw [if_neg (by simp; omega), if_pos (by simp; omega)]
      rw [hout] at hstep
      refine ⟨(c, pe - c) :: out, hstep, ⟨pe - c, out, rfl, le_refl _⟩, ?_, ?_, ?_, ?_⟩
      · intro q hq
        rcases List.mem_cons.mp hq with hq | hq
        · subst hq; simp; omega
        · exact hnn q hq
      · rw [hshape]
        rw [List.chain'_cons]
        constructor
        · unfold gapLt
          simp
          omega
        · rw [← hshape]
          exact hchain
      · intro x
        rw [covers_cons, hcov x, covers_cons]
        unfold rangeMem
        constructor
        · rintro (⟨h1, h2⟩ | ⟨h1, h2⟩ | hct)
          · exact Or.inl ⟨h1, by omega⟩
          · exact Or.inr (Or.inl ⟨h1, h2⟩)
          · exact Or.inr (Or.inr hct)
        · rintro (⟨h1, h2⟩ | ⟨h1, h2⟩ | hct)
          · exact Or.inl ⟨h1, by omega⟩
          · exact Or.inr (Or.inl ⟨h1, h2⟩)
          · exact Or.inr (Or.inr hct)
      · rw [sizeSum_cons, hsum, sizeSum_cons]
        omega

theorem pairwise_endLe_of {l : List (Int × Int)}
    (hpw : l.Pairwise pairLt)
    (hsz : ∀ p ∈ l, 0 ≤ p.2)
    (hov : ∀ p ∈ l, ∀ q ∈ l, p ≠ q → p.1 + p.2 ≤ q.1 ∨ q.1 + q.2 ≤ p.1) :
    l.Pairwise endLe := by
  refine hpw.imp_of_mem ?_
  intro a b ha hb hab
  have hne := pairLt_ne hab
  have h1 := hov a ha b hb hne
  have h2 := hsz a ha
  have h3 := hsz b hb
  unfold pairLt at hab
  unfold endLe
  omega

theorem covers_congr {l m : List (Int × Int)} (h : ∀ p, p ∈ l ↔ p ∈ m) (x : Int) :
    covers l x ↔ covers m x := by
  unfold covers
  constructor
  · rintro ⟨p, hp, hr⟩
    exact ⟨p, (h p).mp hp, hr⟩
  · rintro ⟨p, hp, hr⟩
    exact ⟨p, (h p).mpr hp, hr⟩

/-- C2: on pairwise non-overlapping input intervals of non-negative size,
`contiguous_parts` succeeds and returns intervals in strictly ascending
offset order, separated by strict gaps (hence non-overlapping and
maximal), covering exactly the union of the distinct input intervals,
with sizes summing to the total size of the deduplicated pairs. -/
theorem c2_contiguous_parts_merge_spec (pairs : List (Int × Int))
    (hsz : ∀ p ∈ pairs, 0 ≤ p.2)
    (hov : ∀ p ∈ pairs, ∀ q ∈ pairs, p ≠ q → p.1 + p.2 ≤ q.1 ∨ q.1 + q.2 ≤ p.1) :
    ∃ out, gen_continuous_parts pairs = .ok out ∧
      out.Chain' offLt ∧
      out.Chain' gapLt ∧
      (∀ x, covers out x ↔ covers pairs x) ∧
      sizeSum out = sizeSum (sortedDedup pairs) := by
  have hszD : ∀ p ∈ sortedDedup pairs, 0 ≤ p.2 :=
    fun p hp => hsz p (sortedDedup_mem.mp hp)
  have hovD : ∀ p ∈ sortedDedup pairs, ∀ q ∈ sortedDedup pairs, p ≠ q →
      p.1 + p.2 ≤ q.1 ∨ q.1 + q.2 ≤ p.1 :=
    fun p hp q hq => hov p (sortedDedup_mem.mp hp) q (sortedDedup_mem.mp hq)
  have hpwD := pairwise_endLe_of (sortedDedup_pairwise pairs) hszD hovD
  have hcovD : ∀ x, covers (sortedDedup pairs) x ↔ covers pairs x :=
    covers_congr fun p => sortedDedup_mem
  unfold gen_continuous_parts
  cases hD : sortedDedup pairs with
  | nil =>
    refine ⟨[], rfl, List.chain'_nil, List.chain'_nil, ?_, rfl⟩
    intro x
    rw [covers_nil, ← hcovD x, hD, covers_nil]
  | cons p t =>
    rw [hD] at hpwD hszD hcovD
    rw [List.pairwise_cons] at hpwD
    obtain ⟨out, hout, _, hnn, hchain, hcov, hsum⟩ :=
      genGo_main t p.1 (p.1 + p.2) hpwD.2
        (fun q hq => hszD q (List.mem_cons_of_mem _ hq))
        (fun q hq => hpwD.1 q hq)
        (by have := hszD p (List.mem_cons_self _ _); omega)
    have hstep : genGo none (p :: t) = genGo (some (p.1, p.1 + p.2)) t := by
      rw [genGo]
    refine ⟨out, by rw [hstep]; exact hout, chain_gap_off hnn hchain, hchain, ?_, ?_⟩
    · intro x
      rw [hcov x, ← hcovD x, covers_cons]
      unfold rangeMem
      constructor
      · rintro (⟨h1, h2⟩ | hct)
        · exact Or.inl ⟨h1, h2⟩
        · exact Or.inr hct
      · rintro (⟨h1, h2⟩ | hct)
        · exact Or.inl ⟨h1, h2⟩
        · exact Or.inr hct
    · rw [hsum, sizeSum_cons]
      omega

/-- Witness for C2 at a concrete input. -/
theorem c2_contiguous_parts_merge_spec_witness :
    (∀ p ∈ [((0:Int), (5:Int)), ((5:Int), (3:Int)), ((10:Int), (2:Int))], 0 ≤ p.2) ∧
    (∀ p ∈ [((0:Int), (5:Int)), ((5:Int), (3:Int)), ((10:Int), (2:Int))],
      ∀ q ∈ [((0:Int), (5:Int)), ((5:Int), (3:Int)), ((10:Int), (2:Int))],
        p ≠ q → p.1 + p.2 ≤ q.1 ∨ q.1 + q.2 ≤ p.1) ∧
    (∃ out, gen_continuous_parts [((0:Int), (5:Int)), ((5:Int), (3:Int)), ((10:Int), (2:Int))] = .ok out ∧
      out.Chain' offLt ∧
      out.Chain' gapLt ∧
      (∀ x, covers out x ↔ covers [((0:Int), (5:Int)), ((5:Int), (3:Int)), ((10:Int), (2:Int))] x) ∧
      sizeSum out = sizeSum (sortedDedup [((0:Int), (5:Int)), ((5:Int), (3:Int)), ((10:Int), (2:Int))])) :=
  ⟨by decide, by decide,
   c2_contiguous_parts_merge_spec _ (by decide) (by decide)⟩

/-- C1: the grouping walk of `validate_virtual_data` accepts `c1Table`,
whose per-group file-size totals are `[10, 10, 40]` while the deduplicated
logical-extent sizes are `[10, 30, 20]`: the second completed group's
total (10) differs from its own logical extent's size (30), yet
validation succeeds, because the walk compares every completed group
against `logical_extents[0]`. -/
theorem c1_grouping_check_ignores_later_extents :
    validate_virtual_data c1Table = .ok (0, 100, 60) ∧
    groupSums (sortByFO c1Table) = [10, 10, 40] ∧
    (sortedDedup ((sortByFO c1Table).map fun r =>
      (r.logical_offset, r.logical_size))).map (fun p => p.2) = [10, 30, 20] := by
  refine ⟨by decide, by decide, by decide⟩

/-- C10: a header-only report parses to the empty table, and validating
the empty table fails the single-file-contig check (`gen_continuous_parts`
yields zero merged intervals for zero records). -/
theorem c10_empty_table_rejected :
    parse c10Report = .ok [] ∧
    validate_virtual_data [] = .error .fileContig := by
  refine ⟨by decide, by decide⟩

/-- C4 counterexample: `parse` fails on a well-formed report whose last
line is not newline-terminated (the `strip_suffix` assert), while the
newline-terminated variant of the same text parses successfully, so the
two do not behave identically. -/
theorem c4_trailing_newline_not_optional_cex :
    parse c4NoNlReport = .error .stripNl ∧
    parse c4NlReport = .ok [rowParsed] := by
  refine ⟨by decide, by decide⟩

/-- C5 counterexample: a report whose data line splits into ten fields is
accepted by `parse` (the `zip` silently drops the extra field), instead of
failing with a format-class error. -/
theorem c5_field_count_not_checked_cex :
    parse c5ExtraReport = .ok [rowParsed] := by
  decide

/-- C6 counterexample: the single-record table with the claimed field
values (`file_size = 274877972480` but `logical_size = physical_size =
4611686018427387904`) is rejected by the length cross-check rather than
validating successfully. -/
theorem c6_claimed_record_rejected_cex :
    validate_virtual_data [c6ClaimRec] = .error .lengthMismatch := by
  decide

/-- C7 counterexample: `c7Table` contains two records whose physical
ranges properly overlap, yet `validate_virtual_data` fails with the
co-sortedness error, not an overlap-class error, because the physical
offsets are not ascending and that assert runs before the overlap scan. -/
theorem c7_overlap_error_class_cex :
    validate_virtual_data c7Table = .error .cosort ∧
    Err.cosort ≠ Err.overlap ∧
    (∃ r1 ∈ c7Table, ∃ r2 ∈ c7Table,
      physPair r1 ≠ physPair r2 ∧
      rangeMem 1005 (physPair r1) ∧ rangeMem 1005 (physPair r2)) := by
  refine ⟨by decide, by decide, by decide⟩

/-- C8 counterexample: the two-record tables `[c8RecA, c8RecB]` and its
permutation `[c8RecB, c8RecA]` (the records share the same `file_offset`,
so the stable re-sort preserves their input order) validate to different
results: one succeeds, the other fails the co-sortedness check. -/
theorem c8_tied_offsets_not_invariant_cex :
    List.Perm [c8RecA, c8RecB] [c8RecB, c8RecA] ∧
    validate_virtual_data [c8RecA, c8RecB] = .ok (0, 90, 0) ∧
    validate_virtual_data [c8RecB, c8RecA] = .error .cosort := by
  refine ⟨by decide, by decide, by decide⟩

/-- C4 (amended): the trailing newline is mandatory: `parse` fails with
the `strip_suffix` assertion on every input string that does not end in a
newline. -/
theorem c4_trailing_newline_required (s : String)
    (h : s.data.getLast? ≠ some '\n') : parse s = .error .stripNl := by
  unfold parse strip_nl
  rw [if_neg h]

/-- Witness for C4 at a concrete input. -/
theorem c4_trailing_newline_required_witness :
    parse "abc" = .error .stripNl :=
  c4_trailing_newline_required "abc" (by decide)

theorem zip_left_append {α β : Type} :
    ∀ (l1 : List α) (l2 e : List β), l1.length = l2.length →
      l1.zip (l2 ++ e) = l1.zip l2 := by
  intro l1
  induction l1 with
  | nil => intro l2 e _; simp
  | cons a t1 ih =>
    intro l2 e hlen
    cases l2 with
    | nil => simp at hlen
    | cons b t2 =>
      simp at hlen
      simp [List.zip_cons_cons, ih t2 e hlen]

/-- C5 (amended): `parse` does not check the field count: extra fields
beyond the 9 header columns are silently dropped (the `zip` truncates),
and a short row is accepted as a partial record missing the trailing
columns. -/
theorem c5_zip_truncation :
    (∀ cells extra : List (List Char), cells.length = COL_ORDER.length →
      parseRow (cells ++ extra) = parseRow cells) ∧
    parse c5ShortReport = .ok [c5ShortRow] := by
  constructor
  · intro cells extra hlen
    unfold parseRow
    rw [zip_left_append COL_ORDER cells extra hlen.symm]
  · decide

/-- Witness for C5 at a concrete input: the ten-field row parses exactly
as its nine-field prefix does. -/
theorem c5_zip_truncation_witness :
    parseRow (splitOnChar '\t' rowStr.data ++ ["junk".data]) =
      parseRow (splitOnChar '\t' rowStr.data) :=
  c5_zip_truncation.1 (splitOnChar '\t' rowStr.data) ["junk".data] (by decide)

theorem genCP_single (o s : Int) : gen_continuous_parts [(o, s)] = .ok [(o, s)] := by
  unfold gen_continuous_parts sortedDedup
  simp [insPair, genGo]

theorem get_contigs_single (r : Record) (fo fs : Record → Int) :
    get_contigs [r] fo fs = .ok [(fo r, fs r)] := by
  unfold get_contigs
  simp [nondecr, genCP_single]

/-- C6 (amended): the single-record mega-extent table with `file_size`
equal to the 2^62 extent size validates to
`(0, 274877972480, 4611686018427387904)` for every non-negative logical
offset `X`. -/
theorem c6_single_extent_corrected (X : Int) (_hX : 0 ≤ X) :
    validate_virtual_data [c6Rec X] = .ok (0, 274877972480, 4611686018427387904) := by
  unfold validate_virtual_data
  have hsort : sortByFO [c6Rec X] = [c6Rec X] := rfl
  rw [hsort]
  unfold validate_sorted
  rw [get_contigs_single, get_contigs_single, get_contigs_single]
  simp only [c6Rec, mkRec, sortedDedup, insPair, List.map, List.foldr]
  norm_num [sizeSum, allEqInt, groupWalk, gwGo, gwStep, perRecordChecks, pyMaxBySnd,
    lexNondecr, lexLe]

/-- Witness for C6 at a concrete logical offset. -/
theorem c6_single_extent_corrected_witness :
    validate_virtual_data [c6Rec 7] = .ok (0, 274877972480, 4611686018427387904) :=
  c6_single_extent_corrected 7 (by decide)

/-! ### The stable sort by file offset. -/

/-- Non-strict file-offset order between records. -/
def leFO (a b : Record) : Prop := a.file_offset ≤ b.file_offset

/-- Strict file-offset order between records. -/
def ltFO (a b : Record) : Prop := a.file_offset < b.file_offset

instance : IsAntisymm Record ltFO :=
  ⟨fun _ _ h1 h2 => absurd (lt_trans h1 h2) (lt_irrefl _)⟩

theorem insByFO_mem {r a : Record} :
    ∀ {l : List Record}, a ∈ insByFO r l ↔ a = r ∨ a ∈ l := by
  intro l
  induction l with
  | nil => simp [insByFO]
  | cons q t ih =>
    unfold insByFO
    split_ifs with h1
    · simp only [List.mem_cons]
    · simp only [List.mem_cons, ih]
      tauto

theorem insByFO_perm (r : Record) :
    ∀ (l : List Record), (insByFO r l).Perm (r :: l) := by
  intro l
  induction l with
  | nil => exact List.Perm.refl _
  | cons q t ih =>
    unfold insByFO
    split_ifs with h1
    · exact List.Perm.refl _
    · exact (List.Perm.cons q ih).trans (List.Perm.swap r q t)

theorem sortFold_perm :
    ∀ (l acc : List Record),
      (l.foldl (fun a r => insByFO r a) acc).Perm (acc ++ l) := by
  intro l
  induction l with
  | nil => intro acc; simp
  | cons r t ih =>
    intro acc
    have h1 : (insByFO r acc).Perm (r :: acc) := insByFO_perm r acc
    show (t.foldl (fun a x => insByFO x a) (insByFO r acc)).Perm (acc ++ r :: t)
    refine (ih (insByFO r acc)).trans ?_
    refine (h1.append_right t).trans ?_
    exact (List.perm_middle).symm

theorem sortByFO_perm (l : List Record) : (sortByFO l).Perm l := by
  have := sortFold_perm l []
  simpa [sortByFO] using this

theorem insByFO_sorted {l : List Record} (hs : l.Pairwise leFO) (r : Record) :
    (insByFO r l).Pairwise leFO := by
  induction l with
  | nil => simp [insByFO, List.pairwise_cons]
  | cons q t ih =>
    rw [List.pairwise_cons] at hs
    unfold insByFO
    split_ifs with h1
    · rw [List.pairwise_cons]
      refine ⟨?_, List.pairwise_cons.mpr hs⟩
      intro a ha
      rcases List.mem_cons.mp ha with h | h
      · subst h
        exact le_of_lt h1
      · have := hs.1 a h
        unfold leFO at *
        omega
    · rw [List.pairwise_cons]
      refine ⟨?_, ih hs.2⟩
      intro a ha
      rcases insByFO_mem.mp ha with h | h
      · subst h
        unfold leFO
        omega
      · exact hs.1 a h

theorem sortFold_sorted :
    ∀ (l acc : List Record), acc.Pairwise leFO →
      (l.foldl (fun a r => insByFO r a) acc).Pairwise leFO := by
  intro l
  induction l with
  | nil => intro acc h; exact h
  | cons r t ih =>
    intro acc h
    exact ih (insByFO r acc) (insByFO_sorted h r)

theorem sortByFO_sorted (l : List Record) : (sortByFO l).Pairwise leFO :=
  sortFold_sorted l [] List.Pairwise.nil

theorem sortByFO_strict {l : List Record}
    (hnd : (l.map fun r => r.file_offset).Nodup) :
    (sortByFO l).Pairwise ltFO := by
  have hperm : ((sortByFO l).map fun r => r.file_offset).Perm
      (l.map fun r => r.file_offset) := (sortByFO_perm l).map _
  have hnd2 : ((sortByFO l).map fun r => r.file_offset).Nodup :=
    (hperm.nodup_iff).mpr hnd
  have hne : (sortByFO l).Pairwise fun a b => a.file_offset ≠ b.file_offset :=
    List.pairwise_map.mp hnd2
  have hle := sortByFO_sorted l
  refine (hle.and hne).imp ?_
  intro a b hab
  unfold leFO at hab
  unfold ltFO
  omega

/-- C8 (amended): validation is invariant under permutations of the input
table whenever the records' file offsets are pairwise distinct (the
stable re-sort then has a unique result). -/
theorem c8_permutation_invariance_distinct (pm0 pm1 : List Record)
    (hperm : pm0.Perm pm1)
    (hnd : (pm0.map fun r => r.file_offset).Nodup) :
    validate_virtual_data pm0 = validate_virtual_data pm1 := by
  have hnd1 : (pm1.map fun r => r.file_offset).Nodup :=
    ((hperm.map _).nodup_iff).mp hnd
  have hs0 := sortByFO_strict hnd
  have hs1 := sortByFO_strict hnd1
  have hp : (sortByFO pm0).Perm (sortByFO pm1) :=
    ((sortByFO_perm pm0).trans hperm).trans (sortByFO_perm pm1).symm
  have heq : sortByFO pm0 = sortByFO pm1 :=
    List.eq_of_perm_of_sorted hp hs0 hs1
  unfold validate_virtual_data
  rw [heq]

/-- Witness for C8 at a concrete permutation pair. -/
theorem c8_permutation_invariance_distinct_witness :
    validate_virtual_data c8WitTable =
      validate_virtual_data c8WitTable.reverse :=
  c8_permutation_invariance_distinct c8WitTable c8WitTable.reverse
    (by decide) (by decide)

/-! ### Consequences of a successful contiguity scan. -/

theorem chain_append_rel {α : Type} {R : α → α → Prop} :
    ∀ (l1 : List α) {p q : α} {l2 : List α},
      List.Chain' R (l1 ++ p :: q :: l2) → R p q := by
  intro l1
  induction l1 with
  | nil =>
    intro p q l2 h
    exact (List.chain'_cons.mp h).1
  | cons a t ih =>
    intro p q l2 h
    exact ih h.tail

theorem genCP_ok_chain {pairs out : List (Int × Int)}
    (h : gen_continuous_parts pairs = .ok out) :
    (sortedDedup pairs).Chain' endLe := by
  unfold gen_continuous_parts at h
  cases hD : sortedDedup pairs with
  | nil => exact List.chain'_nil
  | cons p t =>
    rw [hD] at h
    have h' : genGo (some (p.1, p.1 + p.2)) t = .ok out := h
    obtain ⟨hch, hhd⟩ := genGo_ok_chain t _ out h'
    exact List.chain'_cons'.mpr ⟨fun q hq => hhd q hq, hch⟩

theorem chain_endLe_pairwise :
    ∀ {l : List (Int × Int)}, l.Pairwise pairLt → l.Chain' endLe →
      l.Pairwise endLe := by
  intro l
  induction l with
  | nil => intro _ _; exact List.Pairwise.nil
  | cons a t ih =>
    intro hpw hch
    rw [List.pairwise_cons] at hpw
    refine List.pairwise_cons.mpr ⟨?_, ih hpw.2 hch.tail⟩
    intro b hb
    cases t with
    | nil => cases hb
    | cons c t2 =>
      have hac : endLe a c := (List.chain'_cons.mp hch).1
      rcases List.mem_cons.mp hb with h | h
      · subst h; exact hac
      · have hcb : pairLt c b := List.rel_of_pairwise_cons hpw.2 h
        have := pairLt_le hcb
        unfold endLe at *
        omega

theorem pairwise_of_mem_ne {α : Type} {R : α → α → Prop} :
    ∀ {l : List α}, l.Pairwise R → ∀ {a b : α}, a ∈ l → b ∈ l → a ≠ b →
      R a b ∨ R b a := by
  intro l
  induction l with
  | nil => intro _ a b ha; cases ha
  | cons x t ih =>
    intro hpw a b ha hb hne
    rw [List.pairwise_cons] at hpw
    rcases List.mem_cons.mp ha with h1 | h1 <;> rcases List.mem_cons.mp hb with h2 | h2
    · subst h1; subst h2; exact absurd rfl hne
    · subst h1; exact Or.inl (hpw.1 b h2)
    · subst h2; exact Or.inr (hpw.1 a h1)
    · exact ih hpw.2 h1 h2 hne

theorem get_contigs_ok {pm : List Record} {fo fs : Record → Int}
    {out : List (Int × Int)} (h : get_contigs pm fo fs = .ok out) :
    gen_continuous_parts (pm.map fun r => (fo r, fs r)) = .ok out := by
  unfold get_contigs at h
  split_ifs at h with h1
  exact h

theorem genCP_no_overlap {pairs out : List (Int × Int)}
    (h : gen_continuous_parts pairs = .ok out)
    {p q : Int × Int} (hp : p ∈ pairs) (hq : q ∈ pairs) (hne : p ≠ q) :
    ¬ ∃ x, rangeMem x p ∧ rangeMem x q := by
  rintro ⟨x, hxp, hxq⟩
  have hpe := chain_endLe_pairwise (sortedDedup_pairwise pairs) (genCP_ok_chain h)
  have hp' : p ∈ sortedDedup pairs := sortedDedup_mem.mpr hp
  have hq' : q ∈ sortedDedup pairs := sortedDedup_mem.mpr hq
  unfold rangeMem at hxp hxq
  rcases pairwise_of_mem_ne hpe hp' hq' hne with h1 | h1 <;>
    (unfold endLe at h1; omega)

/-- Inversion of a successful validation: the three contiguity scans
succeeded, the physical contig list is non-empty, the best segment is the
Python max of that list, and the returned file offset is the head of the
sorted match list. -/
theorem validate_ok_parts {pm0 : List Record} {f p s : Int}
    (h : validate_virtual_data pm0 = .ok (f, p, s)) :
    ∃ fc pc lc : List (Int × Int),
      get_contigs (sortByFO pm0) (fun r => r.file_offset) (fun r => r.file_size) = .ok fc ∧
      get_contigs (sortByFO pm0) (fun r => r.physical_offset) (fun r => r.physical_size) = .ok pc ∧
      get_contigs (sortByFO pm0) (fun r => r.logical_offset) (fun r => r.logical_size) = .ok lc ∧
      ∃ c cs, pc = c :: cs ∧
        pyMaxBySnd c cs = (p, s) ∧
        ∃ m t, matchPairs pm0 p = m :: t ∧
          lexNondecr (m :: t) = true ∧ m.2 = 0 ∧ m.1 = f := by
  simp only [validate_virtual_data, validate_sorted] at h
  split at h
  · exact Except.noConfusion h
  next fc heqf =>
    split at h
    next hlen =>
      split at h
      · exact Except.noConfusion h
      next pc heqp =>
        split at h
        · exact Except.noConfusion h
        next lc heql =>
          split at h
          next hsz =>
            split at h
            · exact Except.noConfusion h
            next u heqg =>
              split at h
              · exact Except.noConfusion h
              next u2 heqr =>
                split at h
                · exact Except.noConfusion h
                next c cs =>
                  split at h
                  next hlex =>
                    split at h
                    next hmsnil => exact Except.noConfusion h
                    next m t hms =>
                      split at h
                      next hm2 =>
                        injection h with hpair
                        rw [Prod.mk.injEq] at hpair
                        obtain ⟨h1, hrest⟩ := hpair
                        rw [Prod.mk.injEq] at hrest
                        obtain ⟨h2, h3⟩ := hrest
                        rw [hms] at hlex
                        refine ⟨fc, c :: cs, lc, heqf, heqp, heql, c, cs, rfl, ?_, m, t, ?_, hlex, hm2, h1⟩
                        · rw [← h2, ← h3]
                        · rw [h2] at hms
                          unfold matchPairs
                          exact hms
                      next hm2 => exact Except.noConfusion h
                  next hlex => exact Except.noConfusion h
          next hsz => exact Except.noConfusion h
    next hlen => exact Except.noConfusion h

/-- C7 (amended): (1) `contiguous_parts` fails with the overlap error
whenever consecutive pairs of the deduplicated sorted input violate
`previous_end <= offset`; (2) `validate_virtual_data` fails (with some
error) on every table containing two records whose deduplicated ranges
properly overlap in one of the three address spaces — though the error
class may be the co-sortedness one rather than the overlap one. -/
theorem c7_overlap_rejection :
    (∀ pairs : List (Int × Int),
      (∃ l1 p q l2, sortedDedup pairs = l1 ++ p :: q :: l2 ∧ q.1 < p.1 + p.2) →
      gen_continuous_parts pairs = .error .overlap) ∧
    (∀ pm0 : List Record, ∀ r1 ∈ pm0, ∀ r2 ∈ pm0, spaceOverlap r1 r2 →
      ∃ e, validate_virtual_data pm0 = .error e) := by
  constructor
  · rintro pairs ⟨l1, p, q, l2, hD, hlt⟩
    cases hres : gen_continuous_parts pairs with
    | error e =>
      have he : e = .overlap := genGo_error_overlap (sortedDedup pairs) none e hres
      rw [he]
    | ok out =>
      exfalso
      have hch := genCP_ok_chain hres
      rw [hD] at hch
      have := chain_append_rel l1 hch
      unfold endLe at this
      omega
  · intro pm0 r1 h1 r2 h2 hov
    cases hres : validate_virtual_data pm0 with
    | error e => exact ⟨e, rfl⟩
    | ok t =>
      exfalso
      obtain ⟨f, p, s⟩ := t
      obtain ⟨fc, pc, lc, heqf, heqp, heql, _⟩ := validate_ok_parts hres
      have h1' : r1 ∈ sortByFO pm0 := ((sortByFO_perm pm0).mem_iff).mpr h1
      have h2' : r2 ∈ sortByFO pm0 := ((sortByFO_perm pm0).mem_iff).mpr h2
      rcases hov with hcase | hcase | hcase
      · have hgen := get_contigs_ok heqf
        obtain ⟨hne, hx⟩ := hcase
        exact genCP_no_overlap hgen
          (List.mem_map_of_mem _ h1') (List.mem_map_of_mem _ h2') hne hx
      · have hgen := get_contigs_ok heql
        obtain ⟨hne, hx⟩ := hcase
        exact genCP_no_overlap hgen
          (List.mem_map_of_mem _ h1') (List.mem_map_of_mem _ h2') hne hx
      · have hgen := get_contigs_ok heqp
        obtain ⟨hne, hx⟩ := hcase
        exact genCP_no_overlap hgen
          (List.mem_map_of_mem _ h1') (List.mem_map_of_mem _ h2') hne hx

/-- Witness for C7 at concrete inputs: an overlapping pair list is
rejected with the overlap error, and the overlapping-record table
`c7Table` is rejected by validation. -/
theorem c7_overlap_rejection_witness :
    gen_continuous_parts [((0:Int), (5:Int)), ((3:Int), (4:Int))] = .error .overlap ∧
    (∃ e, validate_virtual_data c7Table = .error e) := by
  constructor
  · exact c7_overlap_rejection.1 _ ⟨[], (0, 5), (3, 4), [], by decide, by decide⟩
  · refine c7_overlap_rejection.2 c7Table
      (mkRec 0 10 0 "regular" 10 100 10 1 1005) (by decide)
      (mkRec 10 10 0 "regular" 10 110 10 1 1000) (by decide)
      (Or.inr (Or.inr ⟨by decide, 1005, by decide, by decide⟩))

/-! ### The Python max-by-size scan. -/

theorem pyMaxBySnd_mem :
    ∀ (cs : List (Int × Int)) (c : Int × Int),
      pyMaxBySnd c cs = c ∨ pyMaxBySnd c cs ∈ cs := by
  intro cs
  induction cs with
  | nil => intro c; exact Or.inl rfl
  | cons x t ih =>
    intro c
    show pyMaxBySnd (pyMaxStep c x) t = c ∨ pyMaxBySnd (pyMaxStep c x) t ∈ x :: t
    rcases ih (pyMaxStep c x) with h | h
    · rw [h]
      unfold pyMaxStep
      split_ifs
      · exact Or.inr (List.mem_cons_self _ _)
      · exact Or.inl rfl
    · exact Or.inr (List.mem_cons_of_mem _ h)

theorem pyMaxBySnd_ub :
    ∀ (cs : List (Int × Int)) (c : Int × Int),
      c.2 ≤ (pyMaxBySnd c cs).2 ∧ ∀ q ∈ cs, q.2 ≤ (pyMaxBySnd c cs).2 := by
  intro cs
  induction cs with
  | nil =>
    intro c
    exact ⟨le_refl _, fun q hq => absurd hq (List.not_mem_nil q)⟩
  | cons x t ih =>
    intro c
    obtain ⟨h1, h2⟩ := ih (pyMaxStep c x)
    have hstep : c.2 ≤ (pyMaxStep c x).2 ∧ x.2 ≤ (pyMaxStep c x).2 := by
      unfold pyMaxStep
      split_ifs with hc
      · exact ⟨le_of_lt hc, le_refl _⟩
      · exact ⟨le_refl _, by omega⟩
    refine ⟨le_trans hstep.1 h1, ?_⟩
    intro q hq
    rcases List.mem_cons.mp hq with h | h
    · subst h
      exact le_trans hstep.2 h1
    · exact h2 q h

theorem pyMaxBySnd_first :
    ∀ (cs : List (Int × Int)) (c : Int × Int),
      (c :: cs).Pairwise offLt →
      ∀ q, (q = c ∨ q ∈ cs) → q.2 = (pyMaxBySnd c cs).2 →
        (pyMaxBySnd c cs).1 ≤ q.1 := by
  intro cs
  induction cs with
  | nil =>
    intro c _ q hq _
    rcases hq with h | h
    · subst h; exact le_refl _
    · cases h
  | cons x t ih =>
    intro c hpw q hq hq2
    rw [List.pairwise_cons] at hpw
    obtain ⟨hchead, hpwxt⟩ := hpw
    have hcx : offLt c x := hchead x (List.mem_cons_self _ _)
    have hub := (pyMaxBySnd_ub t (pyMaxStep c x)).1
    have hq2' : q.2 = (pyMaxBySnd (pyMaxStep c x) t).2 := hq2
    by_cases hlt : c.2 < x.2
    · have hstep : pyMaxStep c x = x := by unfold pyMaxStep; rw [if_pos hlt]
      show (pyMaxBySnd (pyMaxStep c x) t).1 ≤ q.1
      rw [hstep] at hub hq2' ⊢
      rcases hq with h | h
      · exfalso
        rw [h] at hq2'
        omega
      · rcases List.mem_cons.mp h with h | h
        · exact ih x hpwxt q (Or.inl h) hq2'
        · exact ih x hpwxt q (Or.inr h) hq2'
    · have hstep : pyMaxStep c x = c := by unfold pyMaxStep; rw [if_neg hlt]
      have hpw' : (c :: t).Pairwise offLt := by
        rw [List.pairwise_cons]
        rw [List.pairwise_cons] at hpwxt
        refine ⟨fun b hb => hchead b (List.mem_cons_of_mem _ hb), hpwxt.2⟩
      show (pyMaxBySnd (pyMaxStep c x) t).1 ≤ q.1
      rw [hstep] at hub hq2' ⊢
      rcases hq with h | h
      · exact ih c hpw' q (Or.inl h) hq2'
      · rcases List.mem_cons.mp h with h | h
        · have hc2 : c.2 = (pyMaxBySnd c t).2 := by
            rw [h] at hq2'
            omega
          have hfin := ih c hpw' c (Or.inl rfl) hc2
          rw [h]
          unfold offLt at hcx
          omega
        · exact ih c hpw' q (Or.inr h) hq2'

/-! ### Error classification for the remaining checks. -/

theorem gwStep_error {logx : List (Int × Int)} {r : Record} {sizes : List Int}
    {idx : Option Nat} {e : Err} (h : gwStep logx r sizes idx = .error e) :
    e = .groupInit ∨ e = .outOfRange ∨ e = .grouping := by
  unfold gwStep at h
  split at h
  · split at h
    · split at h
      · exact Except.noConfusion h
      · injection h with he
        exact Or.inl he.symm
    · split at h
      · injection h with he
        exact Or.inr (Or.inl he.symm)
      · split at h
        · exact Except.noConfusion h
        · injection h with he
          exact Or.inr (Or.inr he.symm)
  · exact Except.noConfusion h

theorem gwGo_error {logx : List (Int × Int)} :
    ∀ (l : List Record) (sizes : List Int) (idx : Option Nat) (e : Err),
      gwGo logx l sizes idx = .error e →
      e = .groupInit ∨ e = .outOfRange ∨ e = .grouping ∨ e = .extOffset := by
  intro l
  induction l with
  | nil => intro sizes idx e h; exact Except.noConfusion h
  | cons r t ih =>
    intro sizes idx e h
    rw [gwGo] at h
    split at h
    next e' heq =>
      injection h with he
      subst he
      rcases gwStep_error heq with h' | h' | h' <;> simp [h']
    next st heq =>
      split_ifs at h with h2
      · exact ih _ _ _ h
      · injection h with he
        simp [he.symm]

theorem perRecordChecks_error :
    ∀ (l : List Record) (e : Err), perRecordChecks l = .error e →
      e = .devid ∨ e = .extype ∨ e = .physLog := by
  intro l
  induction l with
  | nil => intro e h; exact Except.noConfusion h
  | cons r t ih =>
    intro e h
    rw [perRecordChecks] at h
    split_ifs at h with h1 h2 h3
    · injection h with he
      exact Or.inl he.symm
    · injection h with he
      exact Or.inr (Or.inl he.symm)
    · injection h with he
      exact Or.inr (Or.inr he.symm)
    · exact ih e h

theorem get_contigs_error {pm : List Record} {fo fs : Record → Int} {e : Err}
    (h : get_contigs pm fo fs = .error e) : e = .cosort ∨ e = .overlap := by
  unfold get_contigs at h
  split_ifs at h with h1
  · exact Or.inr (genGo_error_overlap _ none e h)
  · injection h with he
    exact Or.inl he.symm

/-- C9: the `no file offset match` assert is unreachable:
`validate_virtual_data` can never fail with `noMatch`, because the chosen
physical contig's start offset is always the physical offset of some
record of the table. -/
theorem c9_no_match_unreachable (pm0 : List Record) :
    validate_virtual_data pm0 ≠ .error Err.noMatch := by
  intro h
  simp only [validate_virtual_data, validate_sorted] at h
  split at h
  next e heq =>
    injection h with he
    subst he
    rcases get_contigs_error heq with h' | h' <;> exact absurd h' (by decide)
  next fc heqf =>
    split at h
    next hlen =>
      split at h
      next e heq =>
        injection h with he
        subst he
        rcases get_contigs_error heq with h' | h' <;> exact absurd h' (by decide)
      next pc heqp =>
        split at h
        next e heq =>
          injection h with he
          subst he
          rcases get_contigs_error heq with h' | h' <;> exact absurd h' (by decide)
        next lc heql =>
          split at h
          next hsz =>
            split at h
            next e heq =>
              injection h with he
              subst he
              rcases gwGo_error _ _ _ _ heq with h' | h' | h' | h' <;>
                exact absurd h' (by decide)
            next u heqg =>
              split at h
              next e heq =>
                injection h with he
                subst he
                rcases perRecordChecks_error _ _ heq with h' | h' | h' <;>
                  exact absurd h' (by decide)
              next u2 heqr =>
                split at h
                next hpcnil => simp at h
                next c cs =>
                  split at h
                  next hlex =>
                    split at h
                    next hms =>
                      have hbmem : pyMaxBySnd c cs ∈ c :: cs := by
                        rcases pyMaxBySnd_mem cs c with h' | h'
                        · rw [h']
                          exact List.mem_cons_self _ _
                        · exact List.mem_cons_of_mem _ h'
                      have hgen := get_contigs_ok heqp
                      have hgen' : genGo none
                          (sortedDedup ((sortByFO pm0).map fun r =>
                            (r.physical_offset, r.physical_size))) = .ok (c :: cs) := hgen
                      have hoff := genGo_ok_offsets
                        (sortedDedup ((sortByFO pm0).map fun r =>
                          (r.physical_offset, r.physical_size)))
                        none (c :: cs) hgen' (pyMaxBySnd c cs) hbmem
                      rcases hoff with ⟨s, hs, _⟩ | ⟨pr, hpr, hb1⟩
                      · exact Option.noConfusion hs
                      · obtain ⟨r, hr, hrp⟩ := List.mem_map.mp (sortedDedup_mem.mp hpr)
                        have hrpo : r.physical_offset = (pyMaxBySnd c cs).1 := by
                          rw [hb1, ← hrp]
                        have hmem2 : (r.file_offset, r.extent_offset) ∈
                            (List.filter (fun r =>
                              decide (r.physical_offset = (pyMaxBySnd c cs).1))
                              (sortByFO pm0)).map
                              (fun r => (r.file_offset, r.extent_offset)) :=
                          List.mem_map_of_mem _
                            (List.mem_filter.mpr ⟨hr, by simp [hrpo]⟩)
                        rw [hms] at hmem2
                        cases hmem2
                    next m t hms =>
                      split at h
                      · simp at h
                      · simp at h
                  next hlex => simp at h
          next hsz => simp at h
    next hlen => simp at h

instance : IsTrans (Int × Int) offLt :=
  ⟨fun _ _ _ h1 h2 => lt_trans h1 h2⟩

theorem lexLe_refl (p : Int × Int) : lexLe p p :=
  Or.inr ⟨rfl, le_refl _⟩

theorem lexLe_trans {p q r : Int × Int} (h1 : lexLe p q) (h2 : lexLe q r) :
    lexLe p r := by
  unfold lexLe at *
  omega

theorem lexNondecr_head_le :
    ∀ (t : List (Int × Int)) (m : Int × Int), lexNondecr (m :: t) = true →
      ∀ q ∈ m :: t, lexLe m q := by
  intro t
  induction t with
  | nil =>
    intro m _ q hq
    rcases List.mem_cons.mp hq with h | h
    · subst h; exact lexLe_refl _
    · cases h
  | cons q2 t2 ih =>
    intro m hnd q hq
    have hsplit : lexLe m q2 ∧ lexNondecr (q2 :: t2) = true := by
      rw [lexNondecr, Bool.and_eq_true, decide_eq_true_eq] at hnd
      exact hnd
    rcases List.mem_cons.mp hq with h | h
    · subst h; exact lexLe_refl _
    · exact lexLe_trans hsplit.1 (ih q2 hsplit.2 q h)

/-- C3: for every table the validator accepts (with the u64 data model's
non-negative physical sizes), the returned `(f, p, s)`: `(p, s)` is one of
the merged physical contigs, `s` is the maximal contig size, `p` is the
offset of the first (smallest-offset) contig achieving that size, and `f`
is the file offset of the smallest `(file_offset, extent_offset)` pair
among the records whose `physical_offset` equals `p`. -/
theorem c3_best_segment_selection (pm0 : List Record) (f p s : Int)
    (hsz : ∀ r ∈ pm0, 0 ≤ r.physical_size)
    (h : validate_virtual_data pm0 = .ok (f, p, s)) :
    ∃ pc, get_contigs (sortByFO pm0) (fun r => r.physical_offset)
        (fun r => r.physical_size) = .ok pc ∧
      (p, s) ∈ pc ∧
      (∀ q ∈ pc, q.2 ≤ s) ∧
      (∀ q ∈ pc, q.2 = s → p ≤ q.1) ∧
      ∃ m t, matchPairs pm0 p = m :: t ∧ m.1 = f ∧ m.2 = 0 ∧
        ∀ q ∈ matchPairs pm0 p, lexLe m q := by
  obtain ⟨fc, pc, lc, heqf, heqp, heql, c, cs, hpc, hmax, m, t, hms, hlex, hm2, hm1⟩ :=
    validate_ok_parts h
  subst hpc
  have hgen := get_contigs_ok heqp
  have hgen' : genGo none (sortedDedup ((sortByFO pm0).map fun r =>
      (r.physical_offset, r.physical_size))) = .ok (c :: cs) := hgen
  have hszD : ∀ q ∈ sortedDedup ((sortByFO pm0).map fun r =>
      (r.physical_offset, r.physical_size)), 0 ≤ q.2 := by
    intro q hqD
    obtain ⟨r, hrmem, hrq⟩ := List.mem_map.mp (sortedDedup_mem.mp hqD)
    rw [← hrq]
    exact hsz r (((sortByFO_perm pm0).mem_iff).mp hrmem)
  have hpwEnd := chain_endLe_pairwise
    (sortedDedup_pairwise ((sortByFO pm0).map fun r =>
      (r.physical_offset, r.physical_size)))
    (genCP_ok_chain hgen)
  have hpwOff : (c :: cs).Pairwise offLt := by
    cases hD : sortedDedup ((sortByFO pm0).map fun r =>
        (r.physical_offset, r.physical_size)) with
    | nil =>
      rw [hD, genGo] at hgen'
      injection hgen' with hnil
      exact absurd hnil (by simp)
    | cons d dt =>
      rw [hD] at hgen' hszD hpwEnd
      rw [List.pairwise_cons] at hpwEnd
      obtain ⟨out, hout, _, hnn, hchain, _, _⟩ :=
        genGo_main dt d.1 (d.1 + d.2) hpwEnd.2
          (fun q hq => hszD q (List.mem_cons_of_mem _ hq))
          (fun q hq => hpwEnd.1 q hq)
          (by have := hszD d (List.mem_cons_self _ _); omega)
      have hred : genGo none (d :: dt) = genGo (some (d.1, d.1 + d.2)) dt := by
        rw [genGo]
      rw [hred, hout] at hgen'
      injection hgen' with hout_eq
      rw [hout_eq] at hnn hchain
      exact List.chain'_iff_pairwise.mp (chain_gap_off hnn hchain)
  refine ⟨c :: cs, heqp, ?_, ?_, ?_, m, t, hms, hm1, hm2, ?_⟩
  · rcases pyMaxBySnd_mem cs c with h' | h'
    · rw [hmax] at h'
      rw [h']
      exact List.mem_cons_self _ _
    · rw [hmax] at h'
      exact List.mem_cons_of_mem _ h'
  · intro q hq
    have hub := pyMaxBySnd_ub cs c
    rcases List.mem_cons.mp hq with h' | h'
    · subst h'
      have := hub.1
      rw [hmax] at this
      exact this
    · have := hub.2 q h'
      rw [hmax] at this
      exact this
  · intro q hq hq2
    have hfirst := pyMaxBySnd_first cs c hpwOff q
      (by
        rcases List.mem_cons.mp hq with h' | h'
        · exact Or.inl h'
        · exact Or.inr h')
      (by rw [hmax]; exact hq2)
    rw [hmax] at hfirst
    exact hfirst
  · intro q hq
    rw [hms] at hq
    exact lexNondecr_head_le t m hlex q hq

/-- Witness for C3 at a concrete accepted table with two tied physical
contigs of size 10, where the first (smallest-offset) one is chosen. -/
theorem c3_best_segment_selection_witness :
    (∀ r ∈ c3Table, 0 ≤ r.physical_size) ∧
    validate_virtual_data c3Table = .ok (0, 100, 10) ∧
    (∃ pc, get_contigs (sortByFO c3Table) (fun r => r.physical_offset)
        (fun r => r.physical_size) = .ok pc ∧
      ((100 : Int), (10 : Int)) ∈ pc ∧
      (∀ q ∈ pc, q.2 ≤ 10) ∧
      (∀ q ∈ pc, q.2 = 10 → 100 ≤ q.1) ∧
      ∃ m t, matchPairs c3Table 100 = m :: t ∧ m.1 = 0 ∧ m.2 = 0 ∧
        ∀ q ∈ matchPairs c3Table 100, lexLe m q) :=
  ⟨by decide, by decide,
   c3_best_segment_selection c3Table 0 100 10 (by decide) (by decide)⟩
